import Mathlib

/-!
Shallow embedding of `src/moco/builder.py` (a single-GPU MoCo model:
momentum-contrast training core with a split batch-normalization layer,
a ring-buffer queue of negative keys, a batch shuffle controller and
contrastive logit assembly), together with theorems settling the spec
claims about it.

Conventions of the embedding:
* Tensors of floats are modelled with exact arithmetic: `ℚ` wherever the
  code only adds, multiplies and divides, `ℝ` where a square root occurs
  (`torch.nn.functional.normalize`, batch-norm denominators).
* The D×K queue tensor `self.queue` is represented by the list of its K
  columns (each a length-D list); `keys.T` written into columns
  `ptr : ptr+B` therefore places key row `b` into column `ptr+b`.
* Fallible Python code (a failing `assert`, a PyTorch shape-mismatch
  error on slice assignment) is modelled with `Option`: `none` is an
  exception propagating to the caller.
* Randomness (`torch.randn`, `torch.randperm`) is modelled by passing
  the drawn value as an explicit argument.
-/

namespace MocoB

/-- Dot product of two vectors, as computed by `torch.einsum('nc,nc->n', ...)`
on one row pair. -/
def dot (v w : List ℚ) : ℚ := (List.zipWith (· * ·) v w).sum

/-- State of the negative-key queue of `MoCo`: the buffer `self.queue`
(D×K, stored as its list of K columns), the cursor `self.queue_ptr` and the
configured capacity `self.K`. Scalar type `α` is `ℚ` for the scoring
claims and `ℝ` for the unit-norm claims. -/
structure QueueState (α : Type) where
  cols : List (List α)
  ptr : ℕ
  K : ℕ
deriving Repr, DecidableEq

/-- Embedding of `MoCo._dequeue_and_enqueue_single_gpu`.

`batch_size = keys.shape[0]`; `assert self.K % batch_size == 0` raises
(`none`) when the capacity is not a multiple of the batch (and Python's
`%` raises on a zero batch). The slice assignment
`self.queue[:, ptr:ptr+batch_size] = keys.T` raises a shape-mismatch
error (`none`) when the slice `ptr : ptr+batch_size` is clipped at the
K-column boundary, i.e. when `K < ptr + batch_size`; otherwise column
`ptr+b` receives key row `b`. Finally `ptr` advances to
`(ptr + batch_size) % K`. -/
def dequeueAndEnqueueSingleGpu {α : Type} (st : QueueState α)
    (keys : List (List α)) : Option (QueueState α) :=
  let batchSize := keys.length
  if batchSize = 0 then none
  else if st.K % batchSize ≠ 0 then none
  else if st.K < st.ptr + batchSize then none
  else some { st with
    cols := st.cols.mapIdx fun j c =>
      if st.ptr ≤ j ∧ j < st.ptr + batchSize then keys.getD (j - st.ptr) c else c,
    ptr := (st.ptr + batchSize) % st.K }

/-- Result of `MoCo.forward`: the returned `(logits, labels)` pair plus the
queue state left behind by the `_dequeue_and_enqueue_single_gpu` side
effect. -/
structure ForwardOut where
  logits : List (List ℚ)
  labels : List ℕ
  state : QueueState ℚ
deriving Repr, DecidableEq

/-- Embedding of the scoring-and-enqueue tail of `MoCo.forward` (from the
`l_pos` einsum to the return), taking the already encoded and normalized
feature matrices `q` and `k` (N×C rows) as inputs — the encoders are
external collaborators.

`l_pos = einsum('nc,nc->n', [q, k]).unsqueeze(-1)` is the positive column;
`l_neg = einsum('nc,ck->nk', [q, queue.clone().detach()])` reads the queue
as it is on entry; `logits = cat([l_pos, l_neg], dim=1)` then
`logits /= T`; `labels = zeros(logits.shape[0])`; finally the key batch is
enqueued, which can raise (`none`). -/
def forward (T : ℚ) (q k : List (List ℚ)) (st : QueueState ℚ) :
    Option ForwardOut :=
  let lPos := List.zipWith dot q k
  let lNeg := q.map fun qi => st.cols.map fun c => dot qi c
  let logits := (List.zipWith (fun p ns => p :: ns) lPos lNeg).map
    fun row => row.map fun a => a / T
  let labels : List ℕ := List.replicate logits.length 0
  (dequeueAndEnqueueSingleGpu st k).map fun st' => ⟨logits, labels, st'⟩

/-- The parameter lists of the two encoders of `MoCo` (`encoder_q`,
`encoder_k`), flattened to one rational per scalar parameter. -/
structure EncoderPair where
  paramsQ : List ℚ
  paramsK : List ℚ
deriving Repr, DecidableEq

/-- Embedding of `MoCo._momentum_update_key_encoder`: for every zipped
parameter pair, `param_k.data = param_k.data * m + param_q.data * (1 - m)`;
the query parameters are not written. -/
def momentumUpdateKeyEncoder (m : ℚ) (e : EncoderPair) : EncoderPair :=
  { e with paramsK := List.zipWith (fun pq pk => pk * m + pq * (1 - m)) e.paramsQ e.paramsK }

/-- Index-select `x[idx]` of a batch along its sample axis, as PyTorch
advanced indexing does in `MoCo._batch_shuffle_single_gpu` and
`MoCo._batch_unshuffle_single_gpu`; `d` is a default for out-of-range
indices (never reached under the permutation hypotheses). -/
def indexSelect {α : Type} (d : α) (x : List α) (idx : List ℕ) : List α :=
  idx.map fun i => x.getD i d

/-- Embedding of `torch.argsort(idx_shuffle)`: the list of indices of
`p` ordered by increasing value of the corresponding entry of `p`. -/
def argsort (p : List ℕ) : List ℕ :=
  List.insertionSort (fun i j => p.getD i 0 ≤ p.getD j 0) (List.range p.length)

/-- Embedding of `MoCo._batch_shuffle_single_gpu`: given the drawn
permutation `idxShuffle` (`torch.randperm(x.shape[0])`), return
`(x[idx_shuffle], torch.argsort(idx_shuffle))`. -/
def batchShuffleSingleGpu {α : Type} (d : α) (x : List α)
    (idxShuffle : List ℕ) : List α × List ℕ :=
  (indexSelect d x idxShuffle, argsort idxShuffle)

/-- Embedding of `MoCo._batch_unshuffle_single_gpu`: `x[idx_unshuffle]`. -/
def batchUnshuffleSingleGpu {α : Type} (d : α) (x : List α)
    (idxUnshuffle : List ℕ) : List α :=
  indexSelect d x idxUnshuffle

/-- Mean of a list of values, as `torch` batch statistics compute it
(sum over the reduced elements divided by their count). -/
def mean (l : List ℚ) : ℚ := l.sum / l.length

/-- Biased (population) variance, used by training-mode batch
normalization to normalize the activations. -/
def biasedVar (l : List ℚ) : ℚ := ((l.map fun v => (v - mean l) ^ 2).sum) / l.length

/-- Unbiased (sample) variance, used by training-mode batch normalization
to update the running variance. -/
def unbiasedVar (l : List ℚ) : ℚ :=
  ((l.map fun v => (v - mean l) ^ 2).sum) / ((l.length : ℚ) - 1)

/-- State of a `SplitBatchNorm` module: `num_splits` plus the
`nn.BatchNorm2d` attributes its `forward` reads (`training`,
`track_running_stats`, the `running_mean`/`running_var` buffers, the
affine `weight`/`bias`, `momentum`, `eps`), each buffer of length C. -/
structure BNState where
  numSplits : ℕ
  training : Bool
  trackRunningStats : Bool
  runningMean : List ℚ
  runningVar : List ℚ
  weight : List ℚ
  bias : List ℚ
  momentum : ℚ
  eps : ℚ
deriving Repr, DecidableEq

/-- An input batch for `SplitBatchNorm.forward`, shape (N, C, H, W):
N samples, each a list of C channels, each channel its H·W pixel values
flattened (batch normalization treats the H and W axes uniformly). -/
abbrev BNInput := List (List (List ℚ))

/-- `tensor.repeat(S)` on a length-C vector: S concatenated copies, so
entry `c'` of the result is entry `c' % C` of the original. -/
def repeatStat {α : Type} (S : ℕ) (l : List α) : List α :=
  ((List.range S).map fun _ => l).flatten

/-- The reshape `input.view(-1, C * num_splits, H, W)` of
`SplitBatchNorm.forward`: row-major regrouping, so virtual sample `g`,
virtual channel `c' = s*C + c` holds original sample `g*S + s`,
channel `c`. -/
def splitView (S C : ℕ) (x : BNInput) : BNInput :=
  (List.range (x.length / S)).map fun g =>
    (List.range (C * S)).map fun c' =>
      (x.getD (g * S + c' / C) []).getD (c' % C) []

/-- All values of channel `c` across a batch (the reduction set of one
batch-norm channel statistic). -/
def channelValues (x : BNInput) (c : ℕ) : List ℚ :=
  (x.map fun sample => sample.getD c []).flatten

/-- The effect of `SplitBatchNorm.forward` on the running-statistics
buffers, returning `(running_mean, running_var)` after the call.

Branch `self.training or not self.track_running_stats`: the buffers are
repeated `num_splits` times, `nn.functional.batch_norm` in training mode
updates each split copy in place with
`(1 - momentum) * old + momentum * batch_stat` (batch mean, and unbiased
batch variance) computed per virtual channel of the split view, and the
buffers are overwritten with `running_*_split.view(num_splits, C).mean(dim=0)`.
Otherwise (eval mode with tracking on) the buffers are untouched. -/
def splitBNForwardStats (st : BNState) (x : BNInput) : List ℚ × List ℚ :=
  if st.training || !st.trackRunningStats then
    let C := (x.getD 0 []).length
    let S := st.numSplits
    let sv := splitView S C x
    let rms := repeatStat S st.runningMean
    let rvs := repeatStat S st.runningVar
    let mus := (List.range (C * S)).map fun c => mean (channelValues sv c)
    let vus := (List.range (C * S)).map fun c => unbiasedVar (channelValues sv c)
    let rms' := List.zipWith (fun r v => (1 - st.momentum) * r + st.momentum * v) rms mus
    let rvs' := List.zipWith (fun r v => (1 - st.momentum) * r + st.momentum * v) rvs vus
    ((List.range C).map fun c =>
        ((List.range S).map fun s => rms'.getD (s * C + c) 0).sum / S,
     (List.range C).map fun c =>
        ((List.range S).map fun s => rvs'.getD (s * C + c) 0).sum / S)
  else
    (st.runningMean, st.runningVar)

/-- Evaluation-mode `nn.functional.batch_norm` (`training=False`): each
value of channel `c` maps to
`weight[c] * (v - running_mean[c]) / sqrt(running_var[c] + eps) + bias[c]`,
using the persisted statistics. -/
noncomputable def batchNormEval (x : BNInput) (rm rv w b : List ℚ) (eps : ℚ) :
    List (List (List ℝ)) :=
  x.map fun sample => sample.mapIdx fun c chan => chan.map fun v =>
    (w.getD c 0 : ℝ) * (((v : ℝ) - (rm.getD c 0 : ℝ)) /
      Real.sqrt ((rv.getD c 0 : ℝ) + (eps : ℝ))) + (b.getD c 0 : ℝ)

/-- The tensor returned by `SplitBatchNorm.forward`.

Branch `self.training or not self.track_running_stats`: training-mode
batch normalization of the split view — original sample `n`, channel `c`
sits at virtual channel `c' = (n % S)*C + c`, is normalized by the batch
mean and biased batch variance of that virtual channel, and scaled by
`weight.repeat(S)[c'] = weight[c]` and `bias[c]` — then viewed back to
(N, C, H, W). Otherwise evaluation-mode batch normalization with the
persisted statistics. -/
noncomputable def splitBNForwardOut (st : BNState) (x : BNInput) :
    List (List (List ℝ)) :=
  if st.training || !st.trackRunningStats then
    let C := (x.getD 0 []).length
    let S := st.numSplits
    let sv := splitView S C x
    x.mapIdx fun n sample => sample.mapIdx fun c chan => chan.map fun v =>
      let vals := channelValues sv ((n % S) * C + c)
      (st.weight.getD c 0 : ℝ) * (((v : ℝ) - (mean vals : ℝ)) /
        Real.sqrt ((biasedVar vals : ℝ) + (st.eps : ℝ))) + (st.bias.getD c 0 : ℝ)
  else
    batchNormEval x st.runningMean st.runningVar st.weight st.bias st.eps

/-- Sum of squares of a real vector (the square of its L2 norm). -/
def sumSq (v : List ℝ) : ℝ := (v.map fun a => a ^ 2).sum

/-- L2 norm of a real vector. -/
noncomputable def l2norm (v : List ℝ) : ℝ := Real.sqrt (sumSq v)

/-- One column of `nn.functional.normalize(queue, dim=0)`: the column
divided by its L2 norm clamped below by `eps` (PyTorch default
`eps = 1e-12`). -/
noncomputable def colNormalize (eps : ℝ) (v : List ℝ) : List ℝ :=
  v.map fun a => a / max (l2norm v) eps

/-- The `eps` default of `torch.nn.functional.normalize`. -/
noncomputable def normalizeEps : ℝ := 1 / 10 ^ 12

/-- The constructor arguments of `MoCo.__init__`
(`dim, K, m, T, mlp, bands`; `base_encoder` is an external factory). -/
structure MoCoConfig where
  dim : ℕ
  K : ℕ
  m : ℚ
  T : ℚ
  mlp : Bool
  bands : String
deriving Repr, DecidableEq

/-- What `MoCo.__init__` determines about one encoder: the `num_classes`
it asks of the factory, the `num_splits` of the `SplitBatchNorm`
constructor passed as `norm_layer`, the input-channel count of the
`conv1` replacement the `bands` branch installs (`none` when the branch
leaves the factory-built `conv1` in place), and whether the two-layer
MLP head replaces `fc`. -/
structure EncoderDesc where
  numClasses : ℕ
  normNumSplits : ℕ
  conv1InChannels : Option ℕ
  mlpHead : Bool
deriving Repr, DecidableEq

/-- The state `MoCo.__init__` builds: the stored hyperparameters
`self.K`, `self.m`, `self.T`, the two encoder descriptions, and the
queue buffers. -/
structure MoCoState where
  K : ℕ
  m : ℚ
  T : ℚ
  encoderQ : EncoderDesc
  encoderK : EncoderDesc
  queue : QueueState ℝ

/-- The `conv1` replacement selected by the `bands` argument of
`MoCo.__init__`: 12, 13, 15 or 2 input channels for `'B12'`, `'B13'`,
`'B15'`, `'B2'`; any other value leaves `conv1` untouched. -/
def bandsConv1 (bands : String) : Option ℕ :=
  if bands = "B12" then some 12
  else if bands = "B13" then some 13
  else if bands = "B15" then some 15
  else if bands = "B2" then some 2
  else none

/-- Embedding of `MoCo.__init__`. It stores `K`, `m` and `T` verbatim
(no validation), builds both encoders from the factory with
`num_classes=dim` and `norm_layer = partial(SplitBatchNorm, num_splits=16)`
— the literal 16 is hard-coded, no constructor argument feeds it —
applies the `bands` and `mlp` modifications to both, and registers the
queue: `queueRandn` stands for the K columns of the `torch.randn(dim, K)`
draw, each column is L2-normalized along `dim=0`, and `queue_ptr` starts
at 0. -/
noncomputable def mocoInit (cfg : MoCoConfig) (queueRandn : List (List ℝ)) :
    MoCoState :=
  let enc : EncoderDesc :=
    { numClasses := cfg.dim
      normNumSplits := 16
      conv1InChannels := bandsConv1 cfg.bands
      mlpHead := cfg.mlp }
  { K := cfg.K
    m := cfg.m
    T := cfg.T
    encoderQ := enc
    encoderK := enc
    queue :=
      { cols := queueRandn.map (colNormalize normalizeEps)
        ptr := 0
        K := cfg.K } }

/-! ## Theorems -/

/-- C7: for every queue state and key batch whose size does not divide the
capacity `K` (an empty batch included, where Python's `%` itself raises),
`_dequeue_and_enqueue_single_gpu` raises (returns `none`): the failed
`assert self.K % batch_size == 0` propagates instead of a silent
misaligned or partial-wraparound write. -/
theorem dequeue_nondivisible_fails (st : QueueState ℚ) (keys : List (List ℚ))
    (h : st.K % keys.length ≠ 0) :
    dequeueAndEnqueueSingleGpu st keys = none := by
  unfold dequeueAndEnqueueSingleGpu
  by_cases h0 : keys.length = 0
  · simp [h0]
  · simp [h0, h]

/-- Witness for C7 at the spec's scenario `K = 100`, `B = 32`. -/
theorem dequeue_nondivisible_fails_witness :
    ((⟨List.replicate 100 [], 0, 100⟩ : QueueState ℚ).K %
        (List.replicate 32 ([] : List ℚ)).length ≠ 0) ∧
    dequeueAndEnqueueSingleGpu (⟨List.replicate 100 [], 0, 100⟩ : QueueState ℚ)
      (List.replicate 32 []) = none :=
  ⟨by decide, dequeue_nondivisible_fails _ _ (by decide)⟩

/-- C4: one `_momentum_update_key_encoder` call leaves the query
parameters unchanged and replaces every key parameter `k` by
`m·k + (1−m)·q`; with `m = 0` the key parameters become an exact copy of
the query parameters. -/
theorem momentum_update_params (m : ℚ) (e : EncoderPair)
    (h : e.paramsQ.length = e.paramsK.length) :
    (momentumUpdateKeyEncoder m e).paramsQ = e.paramsQ ∧
    (momentumUpdateKeyEncoder m e).paramsK.length = e.paramsK.length ∧
    (∀ i, i < e.paramsK.length →
      (momentumUpdateKeyEncoder m e).paramsK.getD i 0 =
        m * e.paramsK.getD i 0 + (1 - m) * e.paramsQ.getD i 0) ∧
    (m = 0 → (momentumUpdateKeyEncoder m e).paramsK = e.paramsQ) := by
  have hlen : (momentumUpdateKeyEncoder m e).paramsK.length = e.paramsK.length := by
    simp [momentumUpdateKeyEncoder, h]
  refine ⟨rfl, hlen, ?_, ?_⟩
  · intro i hi
    have hiq : i < e.paramsQ.length := h ▸ hi
    have hi' : i < (momentumUpdateKeyEncoder m e).paramsK.length := hlen ▸ hi
    rw [List.getD_eq_getElem _ _ hi', List.getD_eq_getElem _ _ hi,
      List.getD_eq_getElem _ _ hiq]
    simp only [momentumUpdateKeyEncoder, List.getElem_zipWith]
    ring
  · intro hm
    subst hm
    apply List.ext_getElem
    · simp [momentumUpdateKeyEncoder, h]
    · intro i h1 h2
      simp only [momentumUpdateKeyEncoder, List.getElem_zipWith]
      ring

/-- Witness for C4 at a one-parameter encoder pair with `m = 1/2`. -/
theorem momentum_update_params_witness :
    ((⟨[2], [5]⟩ : EncoderPair).paramsQ.length =
      (⟨[2], [5]⟩ : EncoderPair).paramsK.length) ∧
    ((momentumUpdateKeyEncoder (1/2) ⟨[2], [5]⟩).paramsQ =
        (⟨[2], [5]⟩ : EncoderPair).paramsQ ∧
      (momentumUpdateKeyEncoder (1/2) ⟨[2], [5]⟩).paramsK.length =
        (⟨[2], [5]⟩ : EncoderPair).paramsK.length ∧
      (∀ i, i < (⟨[2], [5]⟩ : EncoderPair).paramsK.length →
        (momentumUpdateKeyEncoder (1/2) ⟨[2], [5]⟩).paramsK.getD i 0 =
          (1/2) * (⟨[2], [5]⟩ : EncoderPair).paramsK.getD i 0 +
            (1 - 1/2) * (⟨[2], [5]⟩ : EncoderPair).paramsQ.getD i 0) ∧
      ((1/2 : ℚ) = 0 → (momentumUpdateKeyEncoder (1/2) ⟨[2], [5]⟩).paramsK =
        (⟨[2], [5]⟩ : EncoderPair).paramsQ)) :=
  ⟨rfl, momentum_update_params (1/2) ⟨[2], [5]⟩ rfl⟩

/-- C3 as stated is false: with `K = 2`, `B = 2` and entry cursor
`ptr = 1`, the claimed preconditions hold (`B ∣ K` and `ptr < K`), yet
the slice `queue[:, 1:3]` is clipped to one column and the assignment of
the two-column `keys.T` raises a shape error (`none`) instead of writing
the two columns starting at `ptr`. -/
theorem dequeue_ring_write_counterexample :
    ((2 : ℕ) ∣ (⟨[[0], [0]], 1, 2⟩ : QueueState ℚ).K) ∧
    ((⟨[[0], [0]], 1, 2⟩ : QueueState ℚ).ptr < 2) ∧
    dequeueAndEnqueueSingleGpu (⟨[[0], [0]], 1, 2⟩ : QueueState ℚ)
      [[5], [7]] = none := by
  refine ⟨by decide, by decide, by decide⟩

/-- C3 amended: under the additional precondition that the write fits
without wrapping (`ptr + B ≤ K`, which every reachable state satisfies
because `ptr` stays a multiple of the constant batch size), the enqueue
succeeds, the `B` columns starting at the prior `ptr` equal the key
batch transposed, every other column is unchanged, and the new cursor is
`(ptr + B) % K`, so `0 ≤ ptr < K` is preserved. -/
theorem dequeue_ring_write (st : QueueState ℚ) (keys : List (List ℚ))
    (hcols : st.cols.length = st.K) (hdvd : keys.length ∣ st.K)
    (hptr : st.ptr < st.K) (hfit : st.ptr + keys.length ≤ st.K) :
    ∃ st', dequeueAndEnqueueSingleGpu st keys = some st' ∧
      (∀ j, j < keys.length → st'.cols.getD (st.ptr + j) [] = keys.getD j []) ∧
      (∀ j, j < st.K → (j < st.ptr ∨ st.ptr + keys.length ≤ j) →
        st'.cols.getD j [] = st.cols.getD j []) ∧
      st'.ptr = (st.ptr + keys.length) % st.K ∧ st'.ptr < st.K := by
  have hB : keys.length ≠ 0 := by
    intro h0
    rw [h0, zero_dvd_iff] at hdvd
    omega
  have hmod : st.K % keys.length = 0 := by
    obtain ⟨c, hc⟩ := hdvd
    rw [hc]
    exact Nat.mul_mod_right _ _
  refine ⟨{ st with
      cols := st.cols.mapIdx fun j c =>
        if st.ptr ≤ j ∧ j < st.ptr + keys.length then keys.getD (j - st.ptr) c
        else c,
      ptr := (st.ptr + keys.length) % st.K }, ?_, ?_, ?_, rfl, ?_⟩
  · unfold dequeueAndEnqueueSingleGpu
    rw [if_neg hB, if_neg (by simpa using hmod), if_neg (by omega)]
  · intro j hj
    have hlt : st.ptr + j < st.cols.length := by omega
    have hlt' : st.ptr + j <
        (st.cols.mapIdx fun j c =>
          if st.ptr ≤ j ∧ j < st.ptr + keys.length then keys.getD (j - st.ptr) c
          else c).length := by
      rwa [List.length_mapIdx]
    rw [List.getD_eq_getElem _ _ hlt', List.getElem_mapIdx,
      if_pos ⟨Nat.le_add_right _ _, by omega⟩, Nat.add_sub_cancel_left,
      List.getD_eq_getElem _ _ hj, List.getD_eq_getElem _ _ hj]
  · intro j hjK hside
    have hlt : j < st.cols.length := by omega
    have hlt' : j <
        (st.cols.mapIdx fun j c =>
          if st.ptr ≤ j ∧ j < st.ptr + keys.length then keys.getD (j - st.ptr) c
          else c).length := by
      rwa [List.length_mapIdx]
    rw [List.getD_eq_getElem _ _ hlt', List.getElem_mapIdx,
      if_neg (by omega), List.getD_eq_getElem _ _ hlt]
  · exact Nat.mod_lt _ (by omega)

/-- Witness for C3 amended: `K = 2`, `B = 1`, `ptr = 0`. -/
theorem dequeue_ring_write_witness :
    ((⟨[[5], [6]], 0, 2⟩ : QueueState ℚ).cols.length = 2) ∧
    ([[(9 : ℚ)]].length ∣ (2 : ℕ)) ∧ ((0 : ℕ) < 2) ∧ (0 + [[(9 : ℚ)]].length ≤ 2) ∧
    (∃ st', dequeueAndEnqueueSingleGpu (⟨[[5], [6]], 0, 2⟩ : QueueState ℚ)
        [[9]] = some st' ∧
      (∀ j, j < [[(9 : ℚ)]].length →
        st'.cols.getD ((⟨[[5], [6]], 0, 2⟩ : QueueState ℚ).ptr + j) [] =
          [[(9 : ℚ)]].getD j []) ∧
      (∀ j, j < (⟨[[5], [6]], 0, 2⟩ : QueueState ℚ).K →
        (j < (⟨[[5], [6]], 0, 2⟩ : QueueState ℚ).ptr ∨
          (⟨[[5], [6]], 0, 2⟩ : QueueState ℚ).ptr + [[(9 : ℚ)]].length ≤ j) →
        st'.cols.getD j [] = (⟨[[5], [6]], 0, 2⟩ : QueueState ℚ).cols.getD j []) ∧
      st'.ptr = ((⟨[[5], [6]], 0, 2⟩ : QueueState ℚ).ptr + [[(9 : ℚ)]].length) %
        (⟨[[5], [6]], 0, 2⟩ : QueueState ℚ).K ∧
      st'.ptr < (⟨[[5], [6]], 0, 2⟩ : QueueState ℚ).K) :=
  ⟨rfl, by decide, by decide, by decide,
    dequeue_ring_write ⟨[[5], [6]], 0, 2⟩ [[9]] rfl (by decide) (by decide) (by decide)⟩

/-- Unfolding of a successful `forward` call: the returned fields are the
logit matrix and label vector built before the enqueue, and the final
state is the one the enqueue produced. Helper lemma shared by the
forward-call theorems. -/
theorem forward_fields (T : ℚ) (q k : List (List ℚ)) (st : QueueState ℚ)
    (out : ForwardOut) (hout : forward T q k st = some out) :
    out.logits = (List.zipWith (fun p ns => p :: ns) (List.zipWith dot q k)
        (q.map fun qi => st.cols.map fun c => dot qi c)).map
      (fun row => row.map fun a => a / T) ∧
    out.labels = List.replicate out.logits.length 0 ∧
    dequeueAndEnqueueSingleGpu st k = some out.state := by
  unfold forward at hout
  obtain ⟨st', henq, hmk⟩ := Option.map_eq_some'.mp hout
  subst hmk
  exact ⟨rfl, rfl, henq⟩

/-- Length of the logit matrix of a successful `forward` call: one row per
query. Helper lemma. -/
theorem forward_logits_length (T : ℚ) (q k : List (List ℚ)) (st : QueueState ℚ)
    (out : ForwardOut) (hq : q.length = k.length)
    (hout : forward T q k st = some out) :
    out.logits.length = q.length := by
  obtain ⟨hlog, -, -⟩ := forward_fields T q k st out hout
  simp [hlog, hq]

/-- Row `i` of the logit matrix of a successful `forward` call: the
positive similarity `dot(q_i, k_i)` consed onto the `K` queue
similarities, everything divided by the temperature. Helper lemma. -/
theorem forward_logits_row (T : ℚ) (q k : List (List ℚ)) (st : QueueState ℚ)
    (out : ForwardOut) (hq : q.length = k.length)
    (hout : forward T q k st = some out) (i : ℕ) (hi : i < q.length) :
    out.logits.getD i [] =
      (dot (q.getD i []) (k.getD i []) :: st.cols.map fun c =>
        dot (q.getD i []) c).map fun a => a / T := by
  obtain ⟨hlog, -, -⟩ := forward_fields T q k st out hout
  have hik : i < k.length := hq ▸ hi
  rw [hlog]
  have hl : i < ((List.zipWith (fun (p : ℚ) ns => p :: ns) (List.zipWith dot q k)
      (q.map fun qi => st.cols.map fun c => dot qi c)).map
        (fun row => row.map fun a => a / T)).length := by
    simp
    omega
  rw [List.getD_eq_getElem _ _ hl, List.getElem_map, List.getElem_zipWith,
    List.getElem_zipWith, List.getElem_map, List.getD_eq_getElem _ _ hi,
    List.getD_eq_getElem _ _ hik]

/-- C1: a successful `forward` call on `N` query/key pairs returns a label
vector of `N` zeros and a logit matrix of `N` rows of width `1 + K`; each
row is the concatenation of the positive column and the `K` negative
columns divided elementwise by the temperature `T`, so undoing the
temperature scaling of entry 0 of any row recovers exactly the
positive-pair similarity `dot(q_i, k_i)`. -/
theorem forward_labels_logits (T : ℚ) (q k : List (List ℚ)) (st : QueueState ℚ)
    (out : ForwardOut) (hq : q.length = k.length) (hcols : st.cols.length = st.K)
    (hT : 0 < T) (hout : forward T q k st = some out) :
    out.labels = List.replicate q.length 0 ∧
    out.logits.length = q.length ∧
    (∀ i, i < q.length → (out.logits.getD i []).length = 1 + st.K) ∧
    (∀ i, i < q.length → out.logits.getD i [] =
      (dot (q.getD i []) (k.getD i []) :: st.cols.map fun c =>
        dot (q.getD i []) c).map fun a => a / T) ∧
    (∀ i, i < q.length →
      T * (out.logits.getD i []).getD 0 0 = dot (q.getD i []) (k.getD i [])) := by
  obtain ⟨-, hlab, -⟩ := forward_fields T q k st out hout
  have hlen := forward_logits_length T q k st out hq hout
  refine ⟨by rw [hlab, hlen], hlen, ?_, ?_, ?_⟩
  · intro i hi
    rw [forward_logits_row T q k st out hq hout i hi]
    simp [hcols]
    omega
  · exact forward_logits_row T q k st out hq hout
  · intro i hi
    rw [forward_logits_row T q k st out hq hout i hi]
    show T * (dot (q.getD i []) (k.getD i []) / T) = _
    field_simp

/-- Witness for C1: `N = 1`, `D = 1`, `K = 1`, `T = 1`, queue column
`[2]`, feature pair `q = k = [1]`. -/
theorem forward_labels_logits_witness :
    ([[(1 : ℚ)]].length = [[(1 : ℚ)]].length) ∧
    ((⟨[[2]], 0, 1⟩ : QueueState ℚ).cols.length = 1) ∧ ((0 : ℚ) < 1) ∧
    (forward 1 [[1]] [[1]] (⟨[[2]], 0, 1⟩ : QueueState ℚ) =
      some ⟨[[1, 2]], [0], ⟨[[1]], 0, 1⟩⟩) ∧
    ((⟨[[1, 2]], [0], ⟨[[1]], 0, 1⟩⟩ : ForwardOut).labels =
        List.replicate [[(1 : ℚ)]].length 0 ∧
      (⟨[[1, 2]], [0], ⟨[[1]], 0, 1⟩⟩ : ForwardOut).logits.length =
        [[(1 : ℚ)]].length ∧
      (∀ i, i < [[(1 : ℚ)]].length →
        ((⟨[[1, 2]], [0], ⟨[[1]], 0, 1⟩⟩ : ForwardOut).logits.getD i []).length =
          1 + (⟨[[2]], 0, 1⟩ : QueueState ℚ).K) ∧
      (∀ i, i < [[(1 : ℚ)]].length →
        (⟨[[1, 2]], [0], ⟨[[1]], 0, 1⟩⟩ : ForwardOut).logits.getD i [] =
          (dot ([[(1 : ℚ)]].getD i []) ([[(1 : ℚ)]].getD i []) ::
            (⟨[[2]], 0, 1⟩ : QueueState ℚ).cols.map fun c =>
              dot ([[(1 : ℚ)]].getD i []) c).map fun a => a / 1) ∧
      (∀ i, i < [[(1 : ℚ)]].length →
        (1 : ℚ) * ((⟨[[1, 2]], [0], ⟨[[1]], 0, 1⟩⟩ : ForwardOut).logits.getD i []).getD 0 0 =
          dot ([[(1 : ℚ)]].getD i []) ([[(1 : ℚ)]].getD i []))) :=
  ⟨rfl, rfl, by decide, by simp [forward, dequeueAndEnqueueSingleGpu, dot],
    forward_labels_logits 1 [[1]] [[1]] ⟨[[2]], 0, 1⟩ ⟨[[1, 2]], [0], ⟨[[1]], 0, 1⟩⟩
      rfl rfl (by decide) (by simp [forward, dequeueAndEnqueueSingleGpu, dot])⟩

/-- C2: in a successful `forward` call, every negative logit
`logits[i][1+j]` is the similarity of `q_i` with column `j` of the queue
as it was on entry — the state strictly before this step's enqueue — and
the enqueue of the current key batch only shows up in the state the call
leaves behind, so a batch never scores against its own just-inserted
keys. -/
theorem forward_negatives_pre_enqueue (T : ℚ) (q k : List (List ℚ))
    (st : QueueState ℚ) (out : ForwardOut) (hq : q.length = k.length)
    (hout : forward T q k st = some out) :
    (∀ i, i < q.length → ∀ j, j < st.cols.length →
      (out.logits.getD i []).getD (j + 1) 0 =
        dot (q.getD i []) (st.cols.getD j []) / T) ∧
    dequeueAndEnqueueSingleGpu st k = some out.state := by
  obtain ⟨-, -, henq⟩ := forward_fields T q k st out hout
  refine ⟨?_, henq⟩
  intro i hi j hj
  rw [forward_logits_row T q k st out hq hout i hi]
  show ((st.cols.map fun c => dot (q.getD i []) c).map fun a => a / T).getD j 0 = _
  have hj' : j < ((st.cols.map fun c => dot (q.getD i []) c).map fun a => a / T).length := by
    simpa using hj
  have hj'' : j < (st.cols.map fun c => dot (q.getD i []) c).length := by
    simpa using hj
  rw [List.getD_eq_getElem _ _ hj', List.getElem_map, List.getElem_map,
    List.getD_eq_getElem _ _ hj]

/-- Witness for C2 at the same concrete call as the C1 witness. -/
theorem forward_negatives_pre_enqueue_witness :
    ([[(1 : ℚ)]].length = [[(1 : ℚ)]].length) ∧
    (forward 1 [[1]] [[1]] (⟨[[2]], 0, 1⟩ : QueueState ℚ) =
      some ⟨[[1, 2]], [0], ⟨[[1]], 0, 1⟩⟩) ∧
    ((∀ i, i < [[(1 : ℚ)]].length → ∀ j,
        j < (⟨[[2]], 0, 1⟩ : QueueState ℚ).cols.length →
        ((⟨[[1, 2]], [0], ⟨[[1]], 0, 1⟩⟩ : ForwardOut).logits.getD i []).getD (j + 1) 0 =
          dot ([[(1 : ℚ)]].getD i [])
            ((⟨[[2]], 0, 1⟩ : QueueState ℚ).cols.getD j []) / 1) ∧
      dequeueAndEnqueueSingleGpu (⟨[[2]], 0, 1⟩ : QueueState ℚ) [[1]] =
        some (⟨[[1, 2]], [0], ⟨[[1]], 0, 1⟩⟩ : ForwardOut).state) :=
  ⟨rfl, by simp [forward, dequeueAndEnqueueSingleGpu, dot],
    forward_negatives_pre_enqueue 1 [[1]] [[1]] ⟨[[2]], 0, 1⟩
      ⟨[[1, 2]], [0], ⟨[[1]], 0, 1⟩⟩ rfl (by simp [forward, dequeueAndEnqueueSingleGpu, dot])⟩

/-- C9: whatever constructor arguments are passed, `MoCo.__init__` builds
both encoders with a `SplitBatchNorm` whose split factor is the
hard-coded 16; `MoCoConfig` holds every constructor parameter, and none
of them feeds the split factor. -/
theorem encoders_norm_split_sixteen (cfg : MoCoConfig)
    (queueRandn : List (List ℝ)) :
    (mocoInit cfg queueRandn).encoderQ.normNumSplits = 16 ∧
    (mocoInit cfg queueRandn).encoderK.normNumSplits = 16 :=
  ⟨rfl, rfl⟩

/-- C8 as stated is false: constructing a `MoCo` with the non-positive
temperature `T = -1` succeeds and stores `-1` verbatim, and the first
forward call also succeeds, silently dividing the logits by the negative
temperature (flipping their signs) — no explicit error is raised at
construction or at the first offending call. -/
theorem temperature_unchecked_counterexample :
    (mocoInit ⟨128, 1, 999/1000, -1, false, "all"⟩ []).T = -1 ∧
    forward (-1) [[1]] [[1]] (⟨[[1]], 0, 1⟩ : QueueState ℚ) =
      some ⟨[[-1, -1]], [0], ⟨[[1]], 0, 1⟩⟩ :=
  ⟨rfl, by simp [forward, dequeueAndEnqueueSingleGpu, dot]⟩

/-- C8 amended: a non-positive temperature is silently accepted, not
rejected — `MoCo.__init__` stores any `T ≤ 0` unvalidated, and a forward
call whose key batch satisfies the queue preconditions completes without
raising, dividing the logits by that `T` as it stands. -/
theorem temperature_unvalidated (cfg : MoCoConfig) (queueRandn : List (List ℝ))
    (T : ℚ) (q k : List (List ℚ)) (st : QueueState ℚ) (_hT : T ≤ 0)
    (hk : k.length ≠ 0) (hdiv : st.K % k.length = 0)
    (hfit : st.ptr + k.length ≤ st.K) :
    (mocoInit cfg queueRandn).T = cfg.T ∧ ∃ out, forward T q k st = some out := by
  refine ⟨rfl, ?_⟩
  unfold forward dequeueAndEnqueueSingleGpu
  rw [if_neg hk, if_neg (by simpa using hdiv), if_neg (by omega)]
  exact ⟨_, rfl⟩

/-- Witness for C8 amended at `T = -7`. -/
theorem temperature_unvalidated_witness :
    ((-7 : ℚ) ≤ 0) ∧ ([[(1 : ℚ)]].length ≠ 0) ∧
    ((⟨[[1]], 0, 1⟩ : QueueState ℚ).K % [[(1 : ℚ)]].length = 0) ∧
    ((⟨[[1]], 0, 1⟩ : QueueState ℚ).ptr + [[(1 : ℚ)]].length ≤
      (⟨[[1]], 0, 1⟩ : QueueState ℚ).K) ∧
    ((mocoInit ⟨128, 4, 999/1000, -7, false, "all"⟩ []).T = -7 ∧
      ∃ out, forward (-7) [[1]] [[1]] (⟨[[1]], 0, 1⟩ : QueueState ℚ) =
        some out) :=
  ⟨by decide, by decide, by decide, by decide,
    temperature_unvalidated ⟨128, 4, 999/1000, -7, false, "all"⟩ [] (-7)
      [[1]] [[1]] ⟨[[1]], 0, 1⟩ (by decide) (by decide) (by decide) (by decide)⟩

/-- C6 as stated is false: in inference mode (`training = False`) with
running-statistics tracking disabled, `SplitBatchNorm.forward` takes the
split/batch-statistics branch — the condition is
`self.training or not self.track_running_stats` — and mutates the
running-statistics buffers: at a concrete two-sample input, the running
mean changes even though the layer is in eval mode. -/
theorem splitBN_eval_standard_counterexample :
    ((⟨1, false, false, [0], [1], [1], [0], 1/10, 0⟩ : BNState).training = false) ∧
    ((⟨1, false, false, [0], [1], [1], [0], 1/10, 0⟩ : BNState).trackRunningStats =
      false) ∧
    (splitBNForwardStats ⟨1, false, false, [0], [1], [1], [0], 1/10, 0⟩
        [[[0]], [[2]]]).1 ≠
      (⟨1, false, false, [0], [1], [1], [0], 1/10, 0⟩ : BNState).runningMean := by
  refine ⟨rfl, rfl, ?_⟩
  have h : (splitBNForwardStats ⟨1, false, false, [0], [1], [1], [0], 1/10, 0⟩
      [[[0]], [[2]]]).1 = [1/10] := by
    norm_num [splitBNForwardStats, splitView, channelValues, repeatStat, mean,
      unbiasedVar, List.range_succ]
  rw [h]
  norm_num

/-- C6 amended: whenever the layer is in inference mode AND running-
statistics tracking is enabled, `SplitBatchNorm.forward` behaves as
standard (non-split) batch normalization using the persisted C-length
running statistics, and leaves the running-statistics buffers unchanged;
with tracking disabled the split/training branch runs instead, even at
inference. -/
theorem splitBN_eval_standard (st : BNState) (x : BNInput)
    (htr : st.training = false) (hts : st.trackRunningStats = true) :
    splitBNForwardStats st x = (st.runningMean, st.runningVar) ∧
    splitBNForwardOut st x =
      batchNormEval x st.runningMean st.runningVar st.weight st.bias st.eps := by
  constructor
  · simp [splitBNForwardStats, htr, hts]
  · simp [splitBNForwardOut, htr, hts]

/-- Witness for C6 amended at a concrete eval-mode layer and input. -/
theorem splitBN_eval_standard_witness :
    ((⟨1, false, true, [0], [1], [1], [0], 1/10, 0⟩ : BNState).training = false) ∧
    ((⟨1, false, true, [0], [1], [1], [0], 1/10, 0⟩ : BNState).trackRunningStats =
      true) ∧
    (splitBNForwardStats ⟨1, false, true, [0], [1], [1], [0], 1/10, 0⟩
        [[[0]], [[2]]] = ([0], [1]) ∧
      splitBNForwardOut ⟨1, false, true, [0], [1], [1], [0], 1/10, 0⟩
          [[[0]], [[2]]] =
        batchNormEval [[[0]], [[2]]] [0] [1] [1] [0] 0) :=
  ⟨rfl, rfl,
    splitBN_eval_standard ⟨1, false, true, [0], [1], [1], [0], 1/10, 0⟩
      [[[0]], [[2]]] rfl rfl⟩

/-- Reading a list back off its own indices: mapping `i ↦ p[i]` over
`range p.length` returns `p`. Helper lemma for the argsort proof. -/
theorem map_getD_range (p : List ℕ) :
    (List.range p.length).map (fun i => p.getD i 0) = p := by
  apply List.ext_getElem
  · simp
  · intro i h1 h2
    rw [List.getElem_map, List.getElem_range, List.getD_eq_getElem _ _ h2]

/-- `argsort` of a permutation of `range n` is itself a permutation of
`range n`. Helper lemma. -/
theorem argsort_perm (p : List ℕ) : (argsort p).Perm (List.range p.length) :=
  List.perm_insertionSort _ _

/-- Composing a permutation `p` of `range n` with its `argsort` gives the
identity: entry `i` of `argsort p` indexes the entry of `p` holding the
value `i`. Helper lemma underlying the shuffle/unshuffle round trip. -/
theorem getD_argsort (p : List ℕ) {n : ℕ} (hp : p.Perm (List.range n)) :
    ∀ i, i < n → p.getD ((argsort p).getD i 0) 0 = i := by
  have hlen : p.length = n := by simpa using hp.length_eq
  have hperm : (argsort p).Perm (List.range n) := hlen ▸ argsort_perm p
  have hslen : (argsort p).length = n := by simpa using hperm.length_eq
  have hsorted : List.Sorted (fun i j => p.getD i 0 ≤ p.getD j 0) (argsort p) := by
    haveI : IsTotal ℕ (fun i j => p.getD i 0 ≤ p.getD j 0) :=
      ⟨fun a b => Nat.le_total _ _⟩
    haveI : IsTrans ℕ (fun i j => p.getD i 0 ≤ p.getD j 0) :=
      ⟨fun a b c hab hbc => Nat.le_trans hab hbc⟩
    exact List.sorted_insertionSort _ _
  have hqsorted : List.Sorted (· ≤ ·) ((argsort p).map fun i => p.getD i 0) :=
    List.Pairwise.map _ (fun a b h => h) hsorted
  have hqperm : ((argsort p).map fun i => p.getD i 0).Perm (List.range n) := by
    have h1 : ((argsort p).map fun i => p.getD i 0).Perm
        ((List.range n).map fun i => p.getD i 0) := hperm.map _
    have h2 : (List.range n).map (fun i => p.getD i 0) = p := by
      rw [← hlen]
      exact map_getD_range p
    rw [h2] at h1
    exact h1.trans hp
  have hq : ((argsort p).map fun i => p.getD i 0) = List.range n :=
    List.eq_of_perm_of_sorted hqperm hqsorted (List.sorted_le_range n)
  intro i hi
  have hi' : i < ((argsort p).map fun j => p.getD j 0).length := by
    simpa [hslen] using hi
  have hi'' : i < (argsort p).length := hslen ▸ hi
  calc p.getD ((argsort p).getD i 0) 0
      = ((argsort p).map fun j => p.getD j 0).getD i 0 := by
        rw [List.getD_eq_getElem _ _ hi', List.getElem_map,
          List.getD_eq_getElem _ _ hi'']
    _ = (List.range n).getD i 0 := by rw [hq]
    _ = i := by rw [List.getD_eq_getElem _ _ (by simpa using hi), List.getElem_range]

/-- Every entry of `argsort p` is an index below `n` when `p` permutes
`range n`. Helper lemma. -/
theorem argsort_getD_lt (p : List ℕ) {n : ℕ} (hp : p.Perm (List.range n))
    (i : ℕ) (hi : i < n) : (argsort p).getD i 0 < n := by
  have hlen : p.length = n := by simpa using hp.length_eq
  have hperm : (argsort p).Perm (List.range n) := hlen ▸ argsort_perm p
  have hslen : (argsort p).length = n := by simpa using hperm.length_eq
  have hmem : (argsort p).getD i 0 ∈ argsort p := by
    rw [List.getD_eq_getElem _ _ (hslen ▸ hi)]
    exact List.getElem_mem _
  have := hperm.mem_iff.mp hmem
  simpa using this

/-- C5: `_batch_shuffle_single_gpu` followed by
`_batch_unshuffle_single_gpu` with the inverse index it returned
reconstructs the batch exactly, for every batch `x` and every
permutation the `randperm` draw could produce. -/
theorem shuffle_unshuffle_id {α : Type} (d : α) (x : List α) (p : List ℕ)
    (hp : p.Perm (List.range x.length)) :
    batchUnshuffleSingleGpu d (batchShuffleSingleGpu d x p).1
      (batchShuffleSingleGpu d x p).2 = x := by
  have hlen : p.length = x.length := by simpa using hp.length_eq
  have hperm : (argsort p).Perm (List.range x.length) := hlen ▸ argsort_perm p
  have hslen : (argsort p).length = x.length := by simpa using hperm.length_eq
  unfold batchUnshuffleSingleGpu batchShuffleSingleGpu indexSelect
  apply List.ext_getElem
  · simpa using hslen
  · intro i h1 h2
    rw [List.getElem_map]
    have hi : i < x.length := by simpa [hslen] using h2
    have ha : (argsort p)[i] = (argsort p).getD i 0 := by
      rw [List.getD_eq_getElem]
    have haless : (argsort p).getD i 0 < p.length := by
      rw [hlen]
      exact argsort_getD_lt p hp i hi
    have hmaplen : (argsort p).getD i 0 < (p.map fun j => x.getD j d).length := by
      simpa using haless
    rw [ha, List.getD_eq_getElem _ _ hmaplen, List.getElem_map,
      ← List.getD_eq_getElem p 0 haless, getD_argsort p hp i hi,
      List.getD_eq_getElem _ _ hi]

/-- Witness for C5 at a three-sample batch and the drawn permutation
`[2, 0, 1]`. -/
theorem shuffle_unshuffle_id_witness :
    ([2, 0, 1].Perm (List.range [[(10 : ℚ)], [20], [30]].length)) ∧
    batchUnshuffleSingleGpu ([] : List ℚ)
        (batchShuffleSingleGpu ([] : List ℚ) [[10], [20], [30]] [2, 0, 1]).1
        (batchShuffleSingleGpu ([] : List ℚ) [[10], [20], [30]] [2, 0, 1]).2 =
      [[10], [20], [30]] :=
  ⟨by decide, shuffle_unshuffle_id ([] : List ℚ) [[10], [20], [30]] [2, 0, 1]
    (by decide)⟩

/-- A sum of squares is nonnegative. Helper lemma. -/
theorem sumSq_nonneg (v : List ℝ) : 0 ≤ sumSq v :=
  List.sum_nonneg fun x hx => by
    obtain ⟨a, -, rfl⟩ := List.mem_map.mp hx
    positivity

/-- Dividing every entry by `c` divides the sum of squares by `c²`.
Helper lemma. -/
theorem sumSq_map_div (v : List ℝ) (c : ℝ) :
    sumSq (v.map fun a => a / c) = sumSq v / c ^ 2 := by
  induction v with
  | nil => simp [sumSq]
  | cons a t ih =>
    simp only [List.map_cons, sumSq, List.sum_cons] at ih ⊢
    rw [div_pow, ih, div_add_div_same]

/-- A column whose L2 norm clears the `eps` clamp has unit norm after
`nn.functional.normalize`. Helper lemma. -/
theorem l2norm_colNormalize (eps : ℝ) (v : List ℝ) (heps : 0 < eps)
    (h : eps ≤ l2norm v) : l2norm (colNormalize eps v) = 1 := by
  have hpos : 0 < l2norm v := lt_of_lt_of_le heps h
  have hs : 0 < sumSq v := Real.sqrt_pos.mp hpos
  have hmax : max (l2norm v) eps = l2norm v := max_eq_left h
  unfold colNormalize
  rw [hmax]
  unfold l2norm
  rw [sumSq_map_div, Real.sq_sqrt (le_of_lt hs), div_self (ne_of_gt hs),
    Real.sqrt_one]

/-- C10: the queue registered by `MoCo.__init__` is the `randn` draw with
every column L2-normalized, so — whenever each random column's norm
clears the `1e-12` clamp of `nn.functional.normalize`, which holds almost
surely for a Gaussian draw — every queue column has unit L2 norm before
any key has ever been enqueued; and `_dequeue_and_enqueue_single_gpu`
with a batch of unit-norm keys preserves the all-columns-unit-norm
invariant, since each resulting column is either an inserted key or an
untouched old column. -/
theorem queue_unit_norm (cfg : MoCoConfig) (queueRandn : List (List ℝ))
    (hrnd : ∀ c ∈ queueRandn, normalizeEps ≤ l2norm c) :
    (∀ c ∈ (mocoInit cfg queueRandn).queue.cols, l2norm c = 1) ∧
    (∀ (st : QueueState ℝ) (keys : List (List ℝ)) (st' : QueueState ℝ),
      (∀ c ∈ st.cols, l2norm c = 1) → (∀ r ∈ keys, l2norm r = 1) →
      dequeueAndEnqueueSingleGpu st keys = some st' →
      ∀ c ∈ st'.cols, l2norm c = 1) := by
  have heps : (0 : ℝ) < normalizeEps := by
    unfold normalizeEps
    positivity
  constructor
  · intro c hc
    obtain ⟨a, ha, rfl⟩ := List.mem_map.mp hc
    exact l2norm_colNormalize normalizeEps a heps (hrnd a ha)
  · intro st keys st' hst hkeys henq
    unfold dequeueAndEnqueueSingleGpu at henq
    dsimp only at henq
    split_ifs at henq
    rw [Option.some_inj] at henq
    subst henq
    intro c hc
    obtain ⟨j, hj, rfl⟩ := List.mem_iff_getElem.mp hc
    rw [List.getElem_mapIdx]
    have hjlen : j < st.cols.length := by
      rw [List.length_mapIdx] at hj
      exact hj
    split_ifs with hcase
    · have hjk : j - st.ptr < keys.length := by omega
      rw [List.getD_eq_getElem _ _ hjk]
      exact hkeys _ (List.getElem_mem _)
    · exact hst _ (List.getElem_mem _)

/-- Witness for C10 at a one-column `randn` draw `[[1]]` and the enqueue
of the unit key `[1]` into a unit-norm one-column queue. -/
theorem queue_unit_norm_witness :
    (∀ c ∈ [[(1 : ℝ)]], normalizeEps ≤ l2norm c) ∧
    ((∀ c ∈ (mocoInit ⟨1, 1, 999/1000, 7/100, false, "all"⟩ [[(1 : ℝ)]]).queue.cols,
        l2norm c = 1) ∧
      (∀ (st : QueueState ℝ) (keys : List (List ℝ)) (st' : QueueState ℝ),
        (∀ c ∈ st.cols, l2norm c = 1) → (∀ r ∈ keys, l2norm r = 1) →
        dequeueAndEnqueueSingleGpu st keys = some st' →
        ∀ c ∈ st'.cols, l2norm c = 1)) := by
  have h : ∀ c ∈ [[(1 : ℝ)]], normalizeEps ≤ l2norm c := by
    intro c hc
    simp only [List.mem_singleton] at hc
    subst hc
    have h1 : l2norm [(1 : ℝ)] = 1 := by simp [l2norm, sumSq]
    rw [h1]
    norm_num [normalizeEps]
  exact ⟨h, queue_unit_norm ⟨1, 1, 999/1000, 7/100, false, "all"⟩ [[(1 : ℝ)]] h⟩

end MocoB
